import Mathlib

/-
Verification of the lazy-iterator algebra described by the repository
(a notebook exercising the classic iterator building blocks: chain,
dropwhile, filterfalse, groupby, islice, combinations, product, tee).
The notebook cells only call the library's adapters, so the adapters
themselves are modelled here from the specification's component design
(shared-buffer fan-out for tee, index-odometer walking for the
combinatoric generators, streaming state machines for the sequential
combinators), and the claimed properties are proved about those models.
-/

namespace Itertools

/-! ### chain -/

/-- Modelled from the spec: `chain(*sources)` consumes sources strictly in
order, fully exhausting one before advancing to the next.  The model is the
pull state machine: the state is the list of remaining sources; a pull takes
the next element of the current source, or drops an exhausted source and
advances to the next one. -/
def chainRun : List (List α) → List α
  | [] => []
  | [] :: rest => chainRun rest
  | (x :: s) :: rest => x :: chainRun (s :: rest)
  termination_by ls => (ls.map List.length).sum + ls.length
  decreasing_by
  all_goals simp

/-! ### dropwhile -/

/-- Modelled from the spec: `dropwhile(predicate, source)` discards elements
while the predicate holds, then emits the first failing element and the whole
remainder.  The second component counts predicate evaluations: one per
dropped element, one for the first element that fails, none afterwards. -/
def dropwhileGo (p : α → Bool) : List α → Nat → List α × Nat
  | [], n => ([], n)
  | x :: rest, n => if p x then dropwhileGo p rest (n + 1) else (x :: rest, n + 1)

/-- Modelled from the spec: the elements emitted by `dropwhile`. -/
def dropwhile (p : α → Bool) (s : List α) : List α := (dropwhileGo p s 0).1

/-- Modelled from the spec: the number of predicate evaluations performed by
`dropwhile` while materializing its output. -/
def dropwhileCalls (p : α → Bool) (s : List α) : Nat := (dropwhileGo p s 0).2

/-! ### islice -/

/-- Modelled from the spec: whether the exclusive bound `stop` (with `none`
meaning unbounded) has been reached at source position `pos`. -/
def stopReached (stop : Option Nat) (pos : Nat) : Bool :=
  match stop with
  | some t => decide (t ≤ pos)
  | none => false

/-- Modelled from the spec: the streaming state machine behind
`islice(source, start, stop, step)`.  `pos` is the position of the next
source element, `next` the next position to emit; the machine skips until
`next`, emits there, advances `next` by `step`, and stops at `stop` or on
exhaustion. -/
def isliceRun : List α → Nat → Nat → Option Nat → Nat → List α
  | [], _, _, _, _ => []
  | x :: rest, pos, next, stop, step =>
    if stopReached stop pos then []
    else if pos = next then x :: isliceRun rest (pos + 1) (next + step) stop step
    else isliceRun rest (pos + 1) next stop step

/-- Modelled from the spec: `islice(source, start, stop, step)` skips the
first `start` elements, then emits every `step`-th element until the
exclusive bound `stop` (in original source positions) or exhaustion. -/
def islice (s : List α) (start : Nat) (stop : Option Nat) (step : Nat) : List α :=
  isliceRun s 0 start stop step

/-! ### groupby -/

/-- Modelled from the spec: the scanning state machine behind
`groupby(source, key)`.  It keeps the key `k` of the current run and the
elements `acc` collected for it; when the next element's key differs it
closes the current group and opens a fresh one. -/
def groupbyGo [DecidableEq κ] (key : α → κ) (k : κ) (acc : List α) :
    List α → List (κ × List α)
  | [] => [(k, acc)]
  | x :: rest =>
    if key x = k then groupbyGo key k (acc ++ [x]) rest
    else (k, acc) :: groupbyGo key (key x) [x] rest

/-- Modelled from the spec: `groupby(source, key)` scans the source once and
emits `(key, group)` pairs in encounter order, starting a new group exactly
when the key of an element differs from the key of its predecessor. -/
def groupby [DecidableEq κ] (key : α → κ) : List α → List (κ × List α)
  | [] => []
  | x :: rest => groupbyGo key (key x) [x] rest

/-! ### filterfalse -/

/-- Modelled from the spec: the language's truthiness on integers — any
nonzero value counts as true. -/
def truthy (n : Int) : Bool := decide (n ≠ 0)

/-- Modelled from the spec: `filterfalse(predicate, source)` with an
integer-valued predicate emits exactly the elements on which the predicate
returns a falsy (zero) value, scanning the source once in order. -/
def filterfalse (p : α → Int) : List α → List α
  | [] => []
  | x :: rest => if truthy (p x) then filterfalse p rest else x :: filterfalse p rest

/-! ### combinations -/

/-- Modelled from the spec: `combinations(source, r)` walks all
strictly-increasing `r`-index selections over the materialized source in
lexicographic order, emitting the selected elements as a tuple; choosing the
first element and recursing on the remainder before skipping it realizes the
lexicographic successor order. -/
def combinations : List α → Nat → List (List α)
  | _, 0 => [[]]
  | [], _ + 1 => []
  | x :: rest, r + 1 =>
    (combinations rest r).map (fun t => x :: t) ++ combinations rest (r + 1)

/-! ### tee -/

/-- Modelled from the spec: the shared state of the `n` sibling cursors
created by `tee`.  `src` is the not-yet-pulled remainder of the underlying
source, `pulls` counts the elements pulled from it so far, `buffer` is the
shared cache of every element pulled so far, `positions i` is cursor `i`'s
index into the logical sequence, and `outs i` records the elements cursor
`i` has yielded so far. -/
structure TeeState (α : Type u) (n : Nat) where
  src : List α
  pulls : Nat
  buffer : List α
  positions : Fin n → Nat
  outs : Fin n → List α

/-- Modelled from the spec: the state of a fresh `tee(source, n)` split —
nothing pulled yet, empty shared buffer, every cursor at position zero. -/
def teeInit (s : List α) (n : Nat) : TeeState α n :=
  ⟨s, 0, [], fun _ => 0, fun _ => []⟩

/-- Modelled from the spec: one pull on cursor `i`.  A cursor behind the
shared buffer's frontier is served from the buffer and only its own position
advances; a cursor at the frontier pulls one new element from the underlying
source into the buffer; when the source is exhausted the pull signals
exhaustion and changes nothing. -/
def teePull (i : Fin n) (st : TeeState α n) : TeeState α n :=
  if h : st.positions i < st.buffer.length then
    { st with
        positions := Function.update st.positions i (st.positions i + 1),
        outs := Function.update st.outs i
          (st.outs i ++ [st.buffer.get ⟨st.positions i, h⟩]) }
  else
    match st.src with
    | [] => st
    | x :: rest =>
      { st with
          src := rest
          pulls := st.pulls + 1
          buffer := st.buffer ++ [x]
          positions := Function.update st.positions i (st.positions i + 1)
          outs := Function.update st.outs i (st.outs i ++ [x]) }

/-- Modelled from the spec: consume the sibling cursors in an arbitrary
interleaving — the schedule lists, in order, which cursor performs each
pull. -/
def runSchedule : List (Fin n) → TeeState α n → TeeState α n
  | [], st => st
  | i :: sched, st => runSchedule sched (teePull i st)

/-- The shared-buffer invariant of a tee split of the source `s`: the buffer
followed by the unpulled remainder is `s`, the pull counter equals the
buffer length (every element is pulled at most once), and every cursor sits
at most at the buffer's frontier, having yielded exactly the prefix of `s`
below its position. -/
def TeeInv (s : List α) (st : TeeState α n) : Prop :=
  st.buffer ++ st.src = s ∧ st.pulls = st.buffer.length ∧
    ∀ i, st.positions i ≤ st.buffer.length ∧ st.outs i = s.take (st.positions i)

/-! ### product -/

/-- Modelled from the spec: the lexicographic (odometer) successor of an
index vector over the dimensions `dims` — the rightmost component varies
fastest; a component that overflows resets to zero and carries leftward;
`none` signals that the last index vector has been passed. -/
def odoNext : List Nat → List Nat → Option (List Nat)
  | [], [] => none
  | d :: ds, i :: is =>
    (match odoNext ds is with
      | some ks => some (i :: ks)
      | none =>
        if i + 1 < d then some ((i + 1) :: List.replicate ds.length 0) else none)
  | _, _ => none

/-- Modelled from the spec: run the index odometer from a given index
vector, collecting every index vector visited; the fuel bounds the number
of steps. -/
def odoRun : Nat → List Nat → List Nat → List (List Nat)
  | 0, _, _ => []
  | fuel + 1, dims, idx =>
    idx ::
      (match odoNext dims idx with
        | none => []
        | some idx2 => odoRun fuel dims idx2)

/-- Modelled from the spec: the total number of index vectors over the
dimensions `dims`. -/
def prodDims (dims : List Nat) : Nat := dims.foldr (· * ·) 1

/-- Modelled from the spec: all index vectors over `dims` in odometer
order — none when some dimension is zero, otherwise the odometer run from
the all-zero vector. -/
def odoEnum (dims : List Nat) : List (List Nat) :=
  if dims.any (· == 0) then []
  else odoRun (prodDims dims) dims (List.replicate dims.length 0)

/-- The nested-loop enumeration of index vectors, leftmost loop outermost:
the reference semantics of odometer order. -/
def nestedEnum : List Nat → List (List Nat)
  | [] => [[]]
  | d :: ds => (List.range d).flatMap fun i => (nestedEnum ds).map (i :: ·)

/-- Validity of an index vector: one component per dimension, each strictly
below its dimension. -/
def odoValid : List Nat → List Nat → Bool
  | [], [] => true
  | d :: ds, i :: is => decide (i < d) && odoValid ds is
  | _, _ => false

/-- The suffix of the nested-loop enumeration that starts at a given index
vector. -/
def dropEnum : List Nat → List Nat → List (List Nat)
  | [], _ => [[]]
  | d :: ds, i :: is =>
    (dropEnum ds is).map (i :: ·) ++
      (List.range' (i + 1) (d - i - 1)).flatMap fun k => (nestedEnum ds).map (k :: ·)
  | _ :: _, [] => []

/-- Modelled from the spec: look up the components of an index vector in
the materialized sources, producing the selected tuple. -/
def selectGo : List (List α) → List Nat → Option (List α)
  | [], [] => some []
  | l :: ls, i :: is =>
    (match l[i]?, selectGo ls is with
      | some a, some as => some (a :: as)
      | _, _ => none)
  | _, _ => none

/-- Modelled from the spec: `product(*sources)` over a list of materialized
sources — walk the index odometer over the source lengths and emit the
selected tuples. -/
def productGen (ls : List (List α)) : List (List α) :=
  (odoEnum (ls.map List.length)).filterMap (selectGo ls)

/-- Modelled from the spec: the binary `product(A, B)` — the index odometer
over the two source lengths, each index pair mapped to the pair of selected
elements. -/
def product (A : List α) (B : List β) : List (α × β) :=
  (odoEnum [A.length, B.length]).filterMap fun idx =>
    match idx with
    | [i, j] =>
      (match A[i]?, B[j]? with
        | some a, some b => some (a, b)
        | _, _ => none)
    | _ => none

/-- The nested-loop generator from the notebook,
`((x, y) for x in A for y in B)`. -/
def same_product (A : List α) (B : List β) : List (α × β) :=
  A.flatMap fun x => B.map fun y => (x, y)

/-! ### construction-time validation -/

/-- Modelled from the spec: the error taxonomy's construction-time failure
for malformed constructor parameters. -/
inductive ItError
  | invalidArgument
  deriving DecidableEq

/-- Modelled from the spec: `tee(source, n)` validates the cursor count at
construction time, failing with InvalidArgument on a negative count and
otherwise returning the fresh shared state before any element is pulled. -/
def teeCons (s : List α) (n : Int) : Except ItError ((m : Nat) × TeeState α m) :=
  if n < 0 then .error .invalidArgument
  else .ok ⟨n.toNat, teeInit s n.toNat⟩

/-- Modelled from the spec: the construction-time argument check of
`islice` — negative `start` or `stop`, or a non-positive `step`, are
malformed. -/
def badSliceArgs (start : Int) (stop : Option Int) (step : Int) : Bool :=
  decide (start < 0) || decide (step ≤ 0) ||
    (match stop with
      | some t => decide (t < 0)
      | none => false)

/-- Modelled from the spec: `islice(source, start, stop, step)` validates
its bounds at construction time, failing with InvalidArgument on malformed
bounds and otherwise returning the slice. -/
def isliceCons (s : List α) (start : Int) (stop : Option Int) (step : Int) :
    Except ItError (List α) :=
  if badSliceArgs start stop step then .error .invalidArgument
  else .ok (islice s start.toNat (stop.map Int.toNat) step.toNat)

/-- Modelled from the spec: `combinations(source, r)` validates `r` at
construction time, failing with InvalidArgument when `r` is negative. -/
def combinationsCons (s : List α) (r : Int) : Except ItError (List (List α)) :=
  if r < 0 then .error .invalidArgument
  else .ok (combinations s r.toNat)

end Itertools

namespace Itertools

theorem chainRun_nil : chainRun ([] : List (List α)) = [] := by
  simp [chainRun]

theorem chainRun_cons (s : List α) (rest : List (List α)) :
    chainRun (s :: rest) = s ++ chainRun rest := by
  induction s with
  | nil => simp [chainRun]
  | cons x xs ih => simp [chainRun, ih]

theorem chainRun_flatten (ls : List (List α)) : chainRun ls = ls.flatten := by
  induction ls with
  | nil => simp [chainRun]
  | cons s rest ih => simp [chainRun_cons, ih]

/-- C7: materializing `chain` on a single source is the identity, and with
several sources `chain` exhausts a source completely, emitting its elements
in order, before touching the next one — so the materialization of the chain
is the in-order concatenation of the sources. -/
theorem chain_single_identity_and_concat (s : List α) (rest ls : List (List α)) :
    chainRun [s] = s ∧
    chainRun (s :: rest) = s ++ chainRun rest ∧
    chainRun ls = ls.flatten := by
  refine ⟨?_, chainRun_cons s rest, chainRun_flatten ls⟩
  rw [chainRun_cons, chainRun_nil, List.append_nil]

theorem dropwhileGo_spec (p : α → Bool) (s : List α) (n : Nat) :
    ∃ pre, s = pre ++ (dropwhileGo p s n).1 ∧
      (∀ x ∈ pre, p x = true) ∧
      (∀ y ys, (dropwhileGo p s n).1 = y :: ys → p y = false) ∧
      (dropwhileGo p s n).2 =
        n + pre.length + min (dropwhileGo p s n).1.length 1 := by
  induction s generalizing n with
  | nil => exact ⟨[], by simp [dropwhileGo]⟩
  | cons x rest ih =>
    by_cases hx : p x = true
    · obtain ⟨pre, h1, h2, h3, h4⟩ := ih (n + 1)
      refine ⟨x :: pre, ?_, ?_, ?_, ?_⟩
      · simpa [dropwhileGo, hx] using h1
      · intro y hy
        rcases List.mem_cons.mp hy with h | h
        · simpa [h] using hx
        · exact h2 y h
      · intro y ys hy
        exact h3 y ys (by simpa [dropwhileGo, hx] using hy)
      · simp only [dropwhileGo, hx, if_true]
        rw [h4]; simp; omega
    · have hx' : p x = false := by simpa using hx
      refine ⟨[], ?_, by simp, ?_, ?_⟩
      · simp [dropwhileGo, hx']
      · intro y ys hy
        simp only [dropwhileGo, hx', Bool.false_eq_true, if_false] at hy
        cases hy; simpa using hx'
      · simp [dropwhileGo, hx']

/-- C8: `dropwhile` splits the source into a dropped run on which the
predicate holds everywhere followed by the emitted remainder, whose first
element (when present) fails the predicate and whose later elements are
passed through regardless of the predicate; the predicate is evaluated once
per dropped element plus once for the first emitted element and never again
in pass-through mode.  The concrete notebook example is included. -/
theorem dropwhile_spec_and_example (p : α → Bool) (s : List α) :
    (∃ pre, s = pre ++ dropwhile p s ∧
      (∀ x ∈ pre, p x = true) ∧
      (∀ y ys, dropwhile p s = y :: ys → p y = false) ∧
      dropwhileCalls p s =
        pre.length + min (dropwhile p s).length 1) ∧
    dropwhile (fun x => decide (x < 5)) [1, 4, 6, 4, 1] = [6, 4, 1] := by
  constructor
  · obtain ⟨pre, h1, h2, h3, h4⟩ := dropwhileGo_spec p s 0
    exact ⟨pre, h1, h2, h3, by simpa [dropwhileCalls, dropwhile] using h4⟩
  · decide

theorem isliceRun_eq_filter (step : Nat) (hstep : 1 ≤ step) :
    ∀ (s : List α) (pos next : Nat) (stop : Option Nat), pos ≤ next →
      isliceRun s pos next stop step =
        ((List.enumFrom pos s).filter
          (fun p => decide (next ≤ p.1) && decide ((p.1 - next) % step = 0) &&
            !stopReached stop p.1)).map Prod.snd := by
  intro s
  induction s with
  | nil => intro pos next stop _; simp [isliceRun]
  | cons x rest ih =>
    intro pos next stop hpn
    rw [List.enumFrom_cons]
    by_cases hs : stopReached stop pos = true
    · simp only [isliceRun, hs, if_true]
      have h2 : (List.enumFrom (pos + 1) rest).filter
          (fun p => decide (next ≤ p.1) && decide ((p.1 - next) % step = 0) &&
            !stopReached stop p.1) = [] := by
        rw [List.filter_eq_nil_iff]
        rintro ⟨i, a⟩ hmem
        have hi := (List.mem_enumFrom hmem).1
        have hstop : stopReached stop i = true := by
          cases stop with
          | none => simp [stopReached] at hs
          | some t =>
            simp only [stopReached, decide_eq_true_eq] at hs ⊢
            omega
        simp [hstop]
      rw [List.filter_cons_of_neg (by simp [hs]), h2, List.map_nil]
    · have hs' : stopReached stop pos = false := by simpa using hs
      by_cases hpe : pos = next
      · subst hpe
        simp only [isliceRun, hs', Bool.false_eq_true, if_false, if_true, if_pos rfl]
        rw [List.filter_cons_of_pos (by simp [hs', Nat.zero_mod])]
        rw [List.map_cons]
        rw [ih (pos + 1) (pos + step) stop (by omega)]
        apply congrArg (fun l => x :: l)
        apply congrArg (List.map Prod.snd)
        apply List.filter_congr
        rintro ⟨i, a⟩ hmem
        have hi := (List.mem_enumFrom hmem).1
        dsimp only
        rw [← Bool.decide_and, ← Bool.decide_and]
        have hiff : (pos ≤ i ∧ (i - pos) % step = 0) ↔
            (pos + step ≤ i ∧ (i - (pos + step)) % step = 0) := by
          constructor
          · rintro ⟨h1, h2⟩
            have hpos : 0 < i - pos := by omega
            have hle : step ≤ i - pos :=
              Nat.le_of_dvd hpos (Nat.dvd_of_mod_eq_zero h2)
            have heq : i - pos = i - (pos + step) + step := by omega
            rw [heq, Nat.add_mod_right] at h2
            exact ⟨by omega, h2⟩
          · rintro ⟨h1, h2⟩
            have heq : i - pos = i - (pos + step) + step := by omega
            rw [heq, Nat.add_mod_right]
            exact ⟨by omega, h2⟩
        rw [decide_eq_decide.mpr hiff]
      · have hlt : pos < next := by omega
        simp only [isliceRun, hs', Bool.false_eq_true, if_false, if_neg hpe]
        rw [List.filter_cons_of_neg (by simp; omega)]
        exact ih (pos + 1) next stop (by omega)

/-- C6: for `step >= 1`, `islice(source, start, stop, step)` emits exactly
the source elements whose original position `i` satisfies `start <= i`,
`(i - start) % step = 0` and `i` below the exclusive bound `stop` (source
exhaustion cutting things off otherwise), in order; on the notebook's
example it produces `[1, 3, 5]`. -/
theorem islice_spec_and_example (s : List α) (start : Nat) (stop : Option Nat)
    (step : Nat) (hstep : 1 ≤ step) :
    islice s start stop step =
      ((List.enumFrom 0 s).filter
        (fun p => decide (start ≤ p.1) && decide ((p.1 - start) % step = 0) &&
          !stopReached stop p.1)).map Prod.snd ∧
    islice (List.range 10) 1 (some 7) 2 = [1, 3, 5] := by
  refine ⟨isliceRun_eq_filter step hstep s 0 start stop (Nat.zero_le _), by decide⟩

/-- Witness for C6 at the notebook's concrete input. -/
theorem islice_spec_witness :
    islice (List.range 10) 1 (some 7) 2 = [1, 3, 5] :=
  (islice_spec_and_example (List.range 10) 1 (some 7) 2 (by decide)).2

theorem groupbyGo_spec [DecidableEq κ] (key : α → κ) (rest : List α) :
    ∀ k acc, acc ≠ [] → (∀ x ∈ acc, key x = k) →
      (((groupbyGo key k acc rest).map (fun g => g.2)).flatten = acc ++ rest ∧
        (∀ g ∈ groupbyGo key k acc rest, g.2 ≠ [] ∧ ∀ x ∈ g.2, key x = g.1) ∧
        List.Chain' (fun g h => g.1 ≠ h.1) (groupbyGo key k acc rest)) ∧
      (groupbyGo key k acc rest).head?.map Prod.fst = some k := by
  induction rest with
  | nil =>
    intro k acc hacc hkeys
    refine ⟨⟨by simp [groupbyGo], ?_, by simp [groupbyGo]⟩, by simp [groupbyGo]⟩
    intro g hg
    simp only [groupbyGo, List.mem_singleton] at hg
    subst hg
    exact ⟨hacc, hkeys⟩
  | cons x rest ih =>
    intro k acc hacc hkeys
    by_cases hx : key x = k
    · have hkeys2 : ∀ y ∈ acc ++ [x], key y = k := by
        intro y hy
        rcases List.mem_append.mp hy with h | h
        · exact hkeys y h
        · simp only [List.mem_singleton] at h; subst h; exact hx
      obtain ⟨⟨f1, f2, f3⟩, f4⟩ := ih k (acc ++ [x]) (by simp) hkeys2
      refine ⟨⟨?_, ?_, ?_⟩, ?_⟩
      · simp only [groupbyGo, hx, if_true]
        rw [f1]; simp
      · simpa only [groupbyGo, hx, if_true] using f2
      · simpa only [groupbyGo, hx, if_true] using f3
      · simpa only [groupbyGo, hx, if_true] using f4
    · obtain ⟨⟨f1, f2, f3⟩, f4⟩ := ih (key x) [x] (by simp) (by simp)
      refine ⟨⟨?_, ?_, ?_⟩, ?_⟩
      · simp only [groupbyGo, hx, if_false]
        simp only [List.map_cons, List.flatten_cons, f1]
        simp
      · intro g hg
        simp only [groupbyGo, hx, if_false, List.mem_cons] at hg
        rcases hg with h | h
        · subst h; exact ⟨hacc, hkeys⟩
        · exact f2 g h
      · simp only [groupbyGo, hx, if_false]
        rw [List.chain'_cons']
        refine ⟨?_, f3⟩
        intro y hy
        have : y.1 = key x := by
          cases hh : (groupbyGo key (key x) [x] rest).head? with
          | none => rw [hh] at hy; simp at hy
          | some z =>
            rw [hh] at hy f4
            simp only [Option.mem_def, Option.some.injEq] at hy
            simp only [Option.map_some', Option.some.injEq] at f4
            rw [← hy]
            exact f4
        intro hk
        rw [this] at hk
        exact hx hk.symm
      · simp [groupbyGo, hx]

/-- C5: `groupby` decomposes the source into maximal runs of equal keys —
the groups concatenate back to the source in encounter order, every group is
nonempty and constant-key, and adjacent groups carry different keys (so a new
group starts exactly when the key changes, and equal non-adjacent keys stay
in separate groups with no re-sorting); on the notebook's string the keys, in
order, are A, B, C, D, A, B. -/
theorem groupby_runs_and_example [DecidableEq κ] (key : α → κ) (s : List α) :
    ((groupby key s).map (fun g => g.2)).flatten = s ∧
    (∀ g ∈ groupby key s, g.2 ≠ [] ∧ ∀ x ∈ g.2, key x = g.1) ∧
    List.Chain' (fun g h => g.1 ≠ h.1) (groupby key s) ∧
    (groupby (fun c => c) "AAAABBBCCDAABBB".toList).map (fun g => g.1) =
      ['A', 'B', 'C', 'D', 'A', 'B'] := by
  refine ⟨?_, ?_, ?_, by decide⟩
  · cases s with
    | nil => simp [groupby]
    | cons x rest =>
      have := (groupbyGo_spec key rest (key x) [x] (by simp) (by simp)).1.1
      simpa [groupby] using this
  · cases s with
    | nil => simp [groupby]
    | cons x rest =>
      exact (groupbyGo_spec key rest (key x) [x] (by simp) (by simp)).1.2.1
  · cases s with
    | nil => simp [groupby]
    | cons x rest =>
      exact (groupbyGo_spec key rest (key x) [x] (by simp) (by simp)).1.2.2

/-- C9: `filterfalse` with an integer-valued predicate emits exactly the
elements where the predicate returns zero (any nonzero value is treated as
true, no boolean-typed predicate needed); over the first ten naturals with
predicate `x % 2` it yields the even ones. -/
theorem filterfalse_spec_and_example (p : α → Int) (s : List α) :
    filterfalse p s = s.filter (fun x => decide (p x = 0)) ∧
    filterfalse (fun x => x % 2) ((List.range 10).map Int.ofNat) =
      [0, 2, 4, 6, 8] := by
  constructor
  · induction s with
    | nil => simp [filterfalse]
    | cons x rest ih =>
      by_cases hx : p x = 0
      · simp [filterfalse, truthy, hx, ih]
      · simp [filterfalse, truthy, hx, ih]
  · decide

theorem teeInit_inv (s : List α) (n : Nat) : TeeInv s (teeInit s n) :=
  ⟨rfl, rfl, fun _ => ⟨Nat.le_refl 0, rfl⟩⟩

theorem buffer_length_le {s : List α} {st : TeeState α n} (hinv : TeeInv s st) :
    st.buffer.length ≤ s.length := by
  rw [← hinv.1]
  simp

theorem teePull_inv {s : List α} {st : TeeState α n} (i : Fin n)
    (hinv : TeeInv s st) : TeeInv s (teePull i st) := by
  obtain ⟨hb, hp, hc⟩ := hinv
  unfold teePull
  by_cases h : st.positions i < st.buffer.length
  · rw [dif_pos h]
    refine ⟨hb, hp, fun k => ?_⟩
    dsimp only
    by_cases hk : k = i
    · subst hk
      rw [Function.update_same, Function.update_same]
      refine ⟨h, ?_⟩
      have hps : st.positions k < s.length := by
        have : st.buffer.length ≤ s.length := by rw [← hb]; simp
        omega
      have hq : s[st.positions k]? = some (st.buffer[st.positions k]) := by
        rw [← hb, List.getElem?_append, if_pos h, List.getElem?_eq_getElem h]
      rw [(hc k).2, List.take_succ, hq]
      simp [List.get_eq_getElem]
    · rw [Function.update_noteq hk, Function.update_noteq hk]
      exact hc k
  · rw [dif_neg h]
    cases hsrc : st.src with
    | nil =>
      exact ⟨hb, hp, hc⟩
    | cons x rest =>
      dsimp only
      have hpe : st.positions i = st.buffer.length := by
        have := (hc i).1; omega
      have hbx : (st.buffer ++ [x]) ++ rest = s := by
        rw [List.append_assoc, List.singleton_append, ← hsrc]
        exact hb
      refine ⟨hbx, by simp [hp], fun k => ?_⟩
      dsimp only
      by_cases hk : k = i
      · subst hk
        rw [Function.update_same, Function.update_same]
        constructor
        · simp; omega
        · have hs : s = st.buffer ++ (x :: rest) := by rw [← hsrc, hb]
          have hget : s[st.positions k]? = some x := by
            rw [hs, hpe, List.getElem?_append_right (Nat.le_refl _)]
            simp
          rw [(hc k).2, List.take_succ, hget]
          simp
      · rw [Function.update_noteq hk, Function.update_noteq hk]
        refine ⟨?_, (hc k).2⟩
        have := (hc k).1
        simp; omega

theorem teePull_positions_self {s : List α} {st : TeeState α n} (i : Fin n)
    (hinv : TeeInv s st) :
    (teePull i st).positions i = min (st.positions i + 1) s.length := by
  obtain ⟨hb, hp, hc⟩ := hinv
  have hbl : st.buffer.length ≤ s.length := by rw [← hb]; simp
  unfold teePull
  by_cases h : st.positions i < st.buffer.length
  · rw [dif_pos h]
    dsimp only
    rw [Function.update_same]
    omega
  · rw [dif_neg h]
    have hpe : st.positions i = st.buffer.length := by
      have := (hc i).1; omega
    cases hsrc : st.src with
    | nil =>
      dsimp only
      have : st.buffer.length = s.length := by
        rw [← hb, hsrc]; simp
      omega
    | cons x rest =>
      dsimp only
      rw [Function.update_same]
      have : s.length = st.buffer.length + 1 + rest.length := by
        rw [← hb, hsrc]; simp; omega
      omega

theorem teePull_positions_other {st : TeeState α n} {i j : Fin n} (hij : j ≠ i) :
    (teePull i st).positions j = st.positions j := by
  unfold teePull
  by_cases h : st.positions i < st.buffer.length
  · rw [dif_pos h]
    dsimp only
    rw [Function.update_noteq hij]
  · rw [dif_neg h]
    cases st.src with
    | nil => rfl
    | cons x rest =>
      dsimp only
      rw [Function.update_noteq hij]

theorem runSchedule_inv {s : List α} (sched : List (Fin n)) :
    ∀ st : TeeState α n, TeeInv s st → TeeInv s (runSchedule sched st) := by
  induction sched with
  | nil => exact fun _ h => h
  | cons i sched ih => exact fun st h => ih _ (teePull_inv i h)

theorem runSchedule_append (a b : List (Fin n)) (st : TeeState α n) :
    runSchedule (a ++ b) st = runSchedule b (runSchedule a st) := by
  induction a generalizing st with
  | nil => rfl
  | cons i a ih =>
    simp only [List.cons_append, runSchedule]
    exact ih (teePull i st)

theorem runSchedule_replicate_self {s : List α} (k : Nat) :
    ∀ (st : TeeState α n) (i : Fin n), TeeInv s st →
      (runSchedule (List.replicate k i) st).positions i =
        min (st.positions i + k) s.length := by
  induction k with
  | zero =>
    intro st i hinv
    have h1 := (hinv.2.2 i).1
    have h2 := buffer_length_le hinv
    simp only [List.replicate, runSchedule]
    omega
  | succ k ih =>
    intro st i hinv
    rw [List.replicate_succ]
    simp only [runSchedule]
    rw [ih _ i (teePull_inv i hinv), teePull_positions_self i hinv]
    have h2 := buffer_length_le hinv
    omega

theorem runSchedule_replicate_other (k : Nat) {i j : Fin n} (hij : j ≠ i) :
    ∀ st : TeeState α n,
      (runSchedule (List.replicate k i) st).positions j = st.positions j := by
  induction k with
  | zero => exact fun _ => rfl
  | succ k ih =>
    intro st
    rw [List.replicate_succ]
    simp only [runSchedule]
    rw [ih _, teePull_positions_other hij]

/-- C1: for any cursor count, any schedule interleaving the sibling cursors,
and any cursor `i`, running the schedule and then letting cursor `i` pull
`len s` more times makes cursor `i` yield exactly the materialization of the
source, with the underlying source pulled exactly `len s` times in total;
moreover no schedule ever pulls the source more than `len s` times. -/
theorem tee_exhaust_and_pulls (s : List α) (n : Nat) (sched : List (Fin n))
    (i : Fin n) :
    (runSchedule (sched ++ List.replicate s.length i) (teeInit s n)).outs i = s ∧
    (runSchedule (sched ++ List.replicate s.length i) (teeInit s n)).pulls =
      s.length ∧
    (runSchedule sched (teeInit s n)).pulls ≤ s.length := by
  have h1 := runSchedule_inv sched (teeInit s n) (teeInit_inv s n)
  rw [runSchedule_append]
  have h2 := runSchedule_inv (List.replicate s.length i) _ h1
  have hpos :
      (runSchedule (List.replicate s.length i)
        (runSchedule sched (teeInit s n))).positions i = s.length := by
    rw [runSchedule_replicate_self s.length _ i h1]
    omega
  refine ⟨?_, ?_, ?_⟩
  · rw [(h2.2.2 i).2, hpos, List.take_length]
  · have ha := (h2.2.2 i).1
    have hb := buffer_length_le h2
    rw [h2.2.1]
    omega
  · rw [h1.2.1]
    exact buffer_length_le h1

/-- C10: teeing is free of interference — after cursor `i` is consumed to
exhaustion, a sibling cursor `j` subsequently consumed to exhaustion still
yields the full original sequence, cursor `i`'s yielded sequence is still the
full original sequence, and the underlying data (shared buffer plus unpulled
remainder) still materializes to the original list. -/
theorem tee_sibling_frame (s : List α) (n : Nat) (i j : Fin n) (hij : i ≠ j) :
    (runSchedule (List.replicate s.length i ++ List.replicate s.length j)
        (teeInit s n)).outs j = s ∧
    (runSchedule (List.replicate s.length i ++ List.replicate s.length j)
        (teeInit s n)).outs i = s ∧
    (runSchedule (List.replicate s.length i ++ List.replicate s.length j)
          (teeInit s n)).buffer ++
        (runSchedule (List.replicate s.length i ++ List.replicate s.length j)
          (teeInit s n)).src = s := by
  have h1 := runSchedule_inv (List.replicate s.length i) (teeInit s n)
    (teeInit_inv s n)
  rw [runSchedule_append]
  have h2 := runSchedule_inv (List.replicate s.length j) _ h1
  have hposi1 :
      (runSchedule (List.replicate s.length i) (teeInit s n)).positions i =
        s.length := by
    rw [runSchedule_replicate_self s.length _ i (teeInit_inv s n)]
    simp [teeInit]
  have hposj :
      (runSchedule (List.replicate s.length j)
        (runSchedule (List.replicate s.length i) (teeInit s n))).positions j =
          s.length := by
    rw [runSchedule_replicate_self s.length _ j h1]
    have := buffer_length_le h1
    omega
  have hposi2 :
      (runSchedule (List.replicate s.length j)
        (runSchedule (List.replicate s.length i) (teeInit s n))).positions i =
          s.length := by
    rw [runSchedule_replicate_other s.length hij _, hposi1]
  refine ⟨?_, ?_, h2.1⟩
  · rw [(h2.2.2 j).2, hposj, List.take_length]
  · rw [(h2.2.2 i).2, hposi2, List.take_length]

/-- Witness for C10: a two-way split of a three-element list, first cursor
exhausted before the second ever pulls; the second still yields the whole
list. -/
theorem tee_sibling_frame_witness :
    (runSchedule
        (List.replicate ([1, 2, 3] : List Nat).length (0 : Fin 2) ++
          List.replicate ([1, 2, 3] : List Nat).length 1)
        (teeInit [1, 2, 3] 2)).outs 1 = [1, 2, 3] :=
  (tee_sibling_frame [1, 2, 3] 2 0 1 (by decide)).1

theorem combinations_length (s : List α) (r : Nat) :
    (combinations s r).length = s.length.choose r := by
  induction s generalizing r with
  | nil =>
    cases r with
    | zero => simp [combinations]
    | succ r => simp [combinations]
  | cons x rest ih =>
    cases r with
    | zero => simp [combinations]
    | succ r => simp [combinations, ih, Nat.choose_succ_succ]

theorem combinations_mem (s : List α) (r : Nat) :
    ∀ t ∈ combinations s r, t.Sublist s ∧ t.length = r := by
  induction s generalizing r with
  | nil =>
    cases r with
    | zero =>
      intro t ht
      simp only [combinations, List.mem_singleton] at ht
      subst ht
      exact ⟨List.Sublist.refl [], rfl⟩
    | succ r => intro t ht; simp [combinations] at ht
  | cons x rest ih =>
    cases r with
    | zero =>
      intro t ht
      simp only [combinations, List.mem_singleton] at ht
      subst ht
      exact ⟨List.nil_sublist _, rfl⟩
    | succ r =>
      intro t ht
      simp only [combinations, List.mem_append, List.mem_map] at ht
      rcases ht with ⟨t0, ht0, rfl⟩ | ht
      · obtain ⟨hsub, hlen⟩ := ih r t0 ht0
        exact ⟨List.Sublist.cons₂ x hsub, by simp [hlen]⟩
      · obtain ⟨hsub, hlen⟩ := ih (r + 1) t ht
        exact ⟨List.Sublist.cons x hsub, hlen⟩

theorem combinations_nodup (s : List α) (r : Nat) (h : s.Nodup) :
    (combinations s r).Nodup := by
  induction s generalizing r with
  | nil =>
    cases r with
    | zero => simp [combinations]
    | succ r => simp [combinations]
  | cons x rest ih =>
    obtain ⟨hx, hrest⟩ := List.nodup_cons.mp h
    cases r with
    | zero => simp [combinations]
    | succ r =>
      refine List.Nodup.append ?_ (ih (r + 1) hrest) ?_
      · exact (ih r hrest).map (fun a b hab => by simpa using hab)
      · intro t ht1 ht2
        simp only [List.mem_map] at ht1
        obtain ⟨t0, _, rfl⟩ := ht1
        have hsub := (combinations_mem rest (r + 1) _ ht2).1
        exact hx (hsub.subset (List.mem_cons_self x t0))

/-- C4: over a source of distinct elements, `combinations` emits exactly
`C(m, r)` tuples, pairwise distinct, each a strictly increasing selection of
the source (an order-preserving sub-selection of length `r`), and for
`r > m` it emits nothing. -/
theorem combinations_count_distinct_increasing (s : List α) (r : Nat)
    (h : s.Nodup) :
    (combinations s r).length = s.length.choose r ∧
    (combinations s r).Nodup ∧
    (∀ t ∈ combinations s r, t.Sublist s ∧ t.length = r) ∧
    (s.length < r → combinations s r = []) := by
  refine ⟨combinations_length s r, combinations_nodup s r h,
    combinations_mem s r, fun hlt => ?_⟩
  have h0 : (combinations s r).length = 0 := by
    rw [combinations_length]
    exact Nat.choose_eq_zero_of_lt hlt
  exact List.length_eq_zero.mp h0

/-- Witness for C4 at the notebook's concrete input, three distinct elements
chosen two at a time. -/
theorem combinations_count_witness :
    (combinations [1, 2, 3] 2).length = ([1, 2, 3] : List Nat).length.choose 2 :=
  (combinations_count_distinct_increasing [1, 2, 3] 2 (by decide)).1

theorem flatMap_singleton_map (l : List γ) (f : γ → δ) :
    (l.flatMap fun x => [f x]) = l.map f := by
  induction l with
  | nil => rfl
  | cons x xs ih => simp [List.flatMap_cons, ih]

theorem filterMap_flatMap_eq (l : List γ) (g : γ → List δ) (f : δ → Option ε) :
    (l.flatMap g).filterMap f = l.flatMap fun x => (g x).filterMap f := by
  induction l with
  | nil => rfl
  | cons x xs ih => simp [List.flatMap_cons, List.filterMap_append, ih]

theorem nestedEnum_length (ds : List Nat) :
    (nestedEnum ds).length = prodDims ds := by
  induction ds with
  | nil => rfl
  | cons d ds ih =>
    rw [nestedEnum, List.length_flatMap]
    have h1 : List.map (List.length ∘ fun i => (nestedEnum ds).map (i :: ·))
        (List.range d) = List.map (fun _ => prodDims ds) (List.range d) := by
      apply List.map_congr_left
      intro a _
      simp [ih]
    rw [h1, List.map_const', List.sum_replicate, List.length_range, smul_eq_mul]
    rfl

theorem nestedEnum_zero (ds : List Nat) (h : ds.any (· == 0) = true) :
    nestedEnum ds = [] := by
  induction ds with
  | nil => simp at h
  | cons d ds ih =>
    rw [nestedEnum]
    by_cases hd : d = 0
    · subst hd; simp
    · have h2 : ds.any (· == 0) = true := by
        simp only [List.any_cons, Bool.or_eq_true] at h
        rcases h with h1 | h1
        · simp at h1
          exact absurd h1 hd
        · exact h1
      rw [ih h2]
      simp

theorem odoValid_pos (ds : List Nat) :
    ∀ is, odoValid ds is = true → ∀ d ∈ ds, 0 < d := by
  induction ds with
  | nil =>
    intro is _ d hd
    simp at hd
  | cons d0 ds ih =>
    intro is hv d hd
    cases is with
    | nil => simp [odoValid] at hv
    | cons i is0 =>
      simp only [odoValid, Bool.and_eq_true, decide_eq_true_eq] at hv
      rcases List.mem_cons.mp hd with rfl | hd0
      · omega
      · exact ih is0 hv.2 d hd0

theorem odoValid_zeros (ds : List Nat) (h : ∀ d ∈ ds, 0 < d) :
    odoValid ds (List.replicate ds.length 0) = true := by
  induction ds with
  | nil => rfl
  | cons d ds ih =>
    simp only [List.length_cons, List.replicate_succ, odoValid, Bool.and_eq_true,
      decide_eq_true_eq]
    exact ⟨h d (by simp), ih (fun d0 hd0 => h d0 (by simp [hd0]))⟩

theorem odoNext_valid (ds : List Nat) :
    ∀ is ks, odoValid ds is = true → odoNext ds is = some ks →
      odoValid ds ks = true := by
  induction ds with
  | nil =>
    intro is ks hv hn
    cases is with
    | nil => simp [odoNext] at hn
    | cons i is0 => simp [odoValid] at hv
  | cons d ds ih =>
    intro is ks hv hn
    cases is with
    | nil => simp [odoValid] at hv
    | cons i is0 =>
      simp only [odoValid, Bool.and_eq_true, decide_eq_true_eq] at hv
      obtain ⟨hid, hv0⟩ := hv
      simp only [odoNext] at hn
      cases hne : odoNext ds is0 with
      | some ks0 =>
        rw [hne] at hn
        simp only [Option.some.injEq] at hn
        subst hn
        simp only [odoValid, Bool.and_eq_true, decide_eq_true_eq]
        exact ⟨hid, ih is0 ks0 hv0 hne⟩
      | none =>
        rw [hne] at hn
        by_cases hlt : i + 1 < d
        · rw [if_pos hlt] at hn
          simp only [Option.some.injEq] at hn
          subst hn
          simp only [odoValid, Bool.and_eq_true, decide_eq_true_eq]
          exact ⟨hlt, odoValid_zeros ds (odoValid_pos ds is0 hv0)⟩
        · rw [if_neg hlt] at hn
          cases hn

theorem dropEnum_zeros (ds : List Nat) (h : ∀ d ∈ ds, 0 < d) :
    dropEnum ds (List.replicate ds.length 0) = nestedEnum ds := by
  induction ds with
  | nil => rfl
  | cons d ds ih =>
    have hd : 0 < d := h d (by simp)
    simp only [List.length_cons, List.replicate_succ, dropEnum]
    rw [ih (fun d0 hd0 => h d0 (by simp [hd0]))]
    rw [nestedEnum]
    have hr : List.range d = 0 :: List.range' 1 (d - 1) := by
      rw [List.range_eq_range']
      cases d with
      | zero => omega
      | succ d0 =>
        rw [List.range'_succ]
        simp
    rw [hr, List.flatMap_cons]
    simp

theorem dropEnum_step (ds : List Nat) :
    ∀ is, odoValid ds is = true →
      dropEnum ds is = is ::
        (match odoNext ds is with
          | none => []
          | some ks => dropEnum ds ks) := by
  induction ds with
  | nil =>
    intro is hv
    cases is with
    | nil => rfl
    | cons i is0 => simp [odoValid] at hv
  | cons d ds ih =>
    intro is hv
    cases is with
    | nil => simp [odoValid] at hv
    | cons i is0 =>
      simp only [odoValid, Bool.and_eq_true, decide_eq_true_eq] at hv
      obtain ⟨hid, hv0⟩ := hv
      simp only [odoNext]
      cases hne : odoNext ds is0 with
      | some ks0 =>
        simp only [dropEnum]
        rw [ih is0 hv0]
        simp only [hne, List.map_cons, List.cons_append]
      | none =>
        by_cases hlt : i + 1 < d
        · rw [if_pos hlt]
          simp only [dropEnum]
          rw [ih is0 hv0]
          simp only [hne, List.map_cons, List.map_nil, List.cons_append,
            List.nil_append]
          rw [dropEnum_zeros ds (odoValid_pos ds is0 hv0)]
          have hr : List.range' (i + 1) (d - i - 1) =
              (i + 1) :: List.range' (i + 1 + 1) (d - (i + 1) - 1) := by
            have he : d - i - 1 = (d - (i + 1) - 1) + 1 := by omega
            rw [he, List.range'_succ]
          rw [hr, List.flatMap_cons]
        · rw [if_neg hlt]
          simp only [dropEnum]
          rw [ih is0 hv0]
          simp only [hne, List.map_cons, List.map_nil, List.cons_append,
            List.nil_append]
          have he : d - i - 1 = 0 := by omega
          simp [he]

theorem odoRun_eq_dropEnum :
    ∀ (F : Nat) (ds is : List Nat), odoValid ds is = true →
      (dropEnum ds is).length ≤ F → odoRun F ds is = dropEnum ds is := by
  intro F
  induction F with
  | zero =>
    intro ds is hv hlen
    rw [dropEnum_step ds is hv] at hlen
    simp at hlen
  | succ F ih =>
    intro ds is hv hlen
    have hstep := dropEnum_step ds is hv
    cases hne : odoNext ds is with
    | none =>
      rw [hstep]
      simp only [hne]
      simp [odoRun, hne]
    | some ks =>
      rw [hstep]
      simp only [hne]
      simp only [odoRun, hne]
      have hvk := odoNext_valid ds is ks hv hne
      have hlen2 : (dropEnum ds ks).length ≤ F := by
        rw [hstep] at hlen
        simp only [hne, List.length_cons] at hlen
        omega
      rw [ih ds ks hvk hlen2]

theorem odoEnum_eq_nestedEnum (dims : List Nat) :
    odoEnum dims = nestedEnum dims := by
  by_cases h : dims.any (· == 0) = true
  · rw [odoEnum, if_pos h, nestedEnum_zero dims h]
  · have hpos : ∀ d ∈ dims, 0 < d := by
      intro d hd
      by_contra hc
      push_neg at hc
      have hz : dims.any (· == 0) = true :=
        List.any_eq_true.mpr ⟨d, hd, by simp; omega⟩
      exact h hz
    rw [odoEnum, if_neg h]
    have hv := odoValid_zeros dims hpos
    have hlen : (dropEnum dims (List.replicate dims.length 0)).length ≤
        prodDims dims := by
      rw [dropEnum_zeros dims hpos, nestedEnum_length]
    rw [odoRun_eq_dropEnum (prodDims dims) dims _ hv hlen,
      dropEnum_zeros dims hpos]

theorem nestedEnum_pair (m k : Nat) :
    nestedEnum [m, k] =
      (List.range m).flatMap fun i => (List.range k).map fun j => [i, j] := by
  simp only [nestedEnum, flatMap_singleton_map, List.map_map, List.map_cons,
    List.map_nil, List.flatMap_nil]
  rfl

theorem range_filterMap_lookup (B : List β) (h : β → γ) :
    (List.range B.length).filterMap
      (fun j =>
        match B[j]? with
        | some b => some (h b)
        | none => none) = B.map h := by
  induction B with
  | nil => rfl
  | cons b B0 ih =>
    rw [List.length_cons, List.range_succ_eq_map, List.filterMap_cons]
    simp only [List.getElem?_cons_zero]
    rw [List.filterMap_map]
    have hcong : ∀ j ∈ List.range B0.length,
        ((fun j =>
          match (b :: B0)[j]? with
          | some x => some (h x)
          | none => none) ∘ Nat.succ) j =
        (fun j =>
          match B0[j]? with
          | some x => some (h x)
          | none => none) j := by
      intro j _
      simp [Function.comp, List.getElem?_cons_succ]
    rw [List.filterMap_congr hcong, ih]
    simp

theorem product_eq_same (A : List α) (B : List β) :
    product A B = same_product A B := by
  rw [product, odoEnum_eq_nestedEnum, nestedEnum_pair, filterMap_flatMap_eq]
  induction A with
  | nil => rfl
  | cons a A0 ih =>
    rw [List.length_cons, List.range_succ_eq_map, List.flatMap_cons]
    have hfirst :
        ((List.range B.length).map fun j => [0, j]).filterMap
          (fun idx =>
            match idx with
            | [i, j] =>
              (match (a :: A0)[i]?, B[j]? with
                | some x, some y => some (x, y)
                | _, _ => none)
            | _ => none) = B.map fun b => (a, b) := by
      rw [List.filterMap_map]
      have hcong : ∀ j ∈ List.range B.length,
          ((fun idx =>
            match idx with
            | [i, j] =>
              (match (a :: A0)[i]?, B[j]? with
                | some x, some y => some (x, y)
                | _, _ => none)
            | _ => none) ∘ fun j => [0, j]) j =
          (fun j =>
            match B[j]? with
            | some b => some ((fun b => (a, b)) b)
            | none => none) j := by
        intro j _
        cases hB : B[j]? with
        | none => simp [Function.comp, hB]
        | some b => simp [Function.comp, hB]
      rw [List.filterMap_congr hcong, range_filterMap_lookup]
    have hrest :
        ((List.range A0.length).map Nat.succ).flatMap
          (fun i => ((List.range B.length).map fun j => [i, j]).filterMap
            (fun idx =>
              match idx with
              | [i, j] =>
                (match (a :: A0)[i]?, B[j]? with
                  | some x, some y => some (x, y)
                  | _, _ => none)
              | _ => none)) =
        (List.range A0.length).flatMap
          (fun i => ((List.range B.length).map fun j => [i, j]).filterMap
            (fun idx =>
              match idx with
              | [i, j] =>
                (match A0[i]?, B[j]? with
                  | some x, some y => some (x, y)
                  | _, _ => none)
              | _ => none)) := by
      rw [List.flatMap_map]
      apply List.flatMap_congr
      intro i _
      rw [List.filterMap_map, List.filterMap_map]
      apply List.filterMap_congr
      intro j _
      simp [Function.comp, List.getElem?_cons_succ]
    rw [hfirst, hrest, ih]
    simp only [same_product, List.flatMap_cons]

/-- C2: the binary `product`, computed by the spec's index odometer over the
materialized sources, emits exactly the tuples of the notebook's nested-loop
generator `((x, y) for x in A for y in B)` — odometer order with the
rightmost source varying fastest; the general product yields nothing when
some source is empty, while the product of an empty source list yields
exactly one empty tuple. -/
theorem product_odometer_eq_nested_and_empty (A : List α) (B : List β)
    (ls : List (List γ)) :
    product A B = same_product A B ∧
    ((∃ l ∈ ls, l = []) → productGen ls = []) ∧
    productGen ([] : List (List γ)) = [[]] := by
  refine ⟨product_eq_same A B, ?_, rfl⟩
  rintro ⟨l, hl, rfl⟩
  have hz : (ls.map List.length).any (· == 0) = true :=
    List.any_eq_true.mpr ⟨0, List.mem_map.mpr ⟨[], hl, rfl⟩, by simp⟩
  rw [productGen, odoEnum, if_pos hz]
  rfl

/-- Witness for C2: the binary equivalence on the notebook's two-by-two
example and the empty-source collapse on a concrete source list. -/
theorem product_odometer_witness :
    product ([1, 2] : List Nat) ([10, 20] : List Nat) =
      same_product [1, 2] [10, 20] ∧
    productGen [[1], ([] : List Nat)] = [] :=
  ⟨(product_odometer_eq_nested_and_empty [1, 2] [10, 20]
      [[1], ([] : List Nat)]).1,
    (product_odometer_eq_nested_and_empty ([1, 2] : List Nat)
      ([10, 20] : List Nat) [[1], ([] : List Nat)]).2.1 ⟨[], by simp, rfl⟩⟩

/-- C3: each malformed construction parameter — negative `tee` cursor count,
non-positive `islice` step, negative `combinations` r — makes the
corresponding constructor itself return InvalidArgument; well-formed
construction returns the adapter with zero elements pulled from the
upstream source, so errors are decided at construction time, not at the
first pull. -/
theorem construction_invalid_arguments (s : List α) (n start stp r : Int)
    (stop : Option Int) (hn : n < 0) (hstep : stp ≤ 0) (hr : r < 0) :
    teeCons s n = .error .invalidArgument ∧
    isliceCons s start stop stp = .error .invalidArgument ∧
    combinationsCons s r = .error .invalidArgument ∧
    ∀ m : Int, 0 ≤ m →
      teeCons s m = .ok ⟨m.toNat, teeInit s m.toNat⟩ ∧
        (teeInit s m.toNat).pulls = 0 := by
  refine ⟨?_, ?_, ?_, ?_⟩
  · simp [teeCons, hn]
  · simp [isliceCons, badSliceArgs, hstep]
  · simp [combinationsCons, hr]
  · intro m hm
    refine ⟨?_, rfl⟩
    simp only [teeCons]
    rw [if_neg (by omega)]

/-- Witness for C3: the three malformed constructions on a concrete list,
plus the well-formed tee construction pulling nothing. -/
theorem construction_invalid_witness :
    teeCons ([1, 2, 3] : List Nat) (-1) = .error .invalidArgument ∧
    isliceCons ([1, 2, 3] : List Nat) 0 none 0 = .error .invalidArgument ∧
    combinationsCons ([1, 2, 3] : List Nat) (-1) = .error .invalidArgument ∧
    ∀ m : Int, 0 ≤ m →
      teeCons ([1, 2, 3] : List Nat) m = .ok ⟨m.toNat, teeInit [1, 2, 3] m.toNat⟩ ∧
        (teeInit ([1, 2, 3] : List Nat) m.toNat).pulls = 0 :=
  construction_invalid_arguments [1, 2, 3] (-1) 0 0 (-1) none (by decide)
    (by decide) (by decide)

end Itertools
